import Mathlib

/-!
Verification of the message-admission and backlog subsystem of the qibft
consensus core (`consensus/qibft/core/backlog.go`).

The definitions below are a shallow embedding of `backlog.go`:
`checkMessage`, `toPriority`, `Core.storeBacklog`, `Core.storeQBFTBacklog`
and `Core.processBacklog` mirror the Go functions of the same names.
Supporting types that live outside that file (the `View` type and its
`Cmp` ordering, the message-code constants, the consensus states, the
error values, and the third-party `prque` priority queue) are modelled
from the specification, as documented on each definition.
-/

namespace QibftBacklog

/-- Modelled from the spec: a `View` is a (sequence, round) pair; in Go the
fields are `*big.Int`. This type models a view whose fields are both
present; `RawView` below models the raw struct with possibly-nil fields. -/
structure View where
  sequence : Nat
  round : Nat
deriving DecidableEq, Repr

/-- Modelled from the spec: the raw Go `View` struct, whose `Sequence` and
`Round` pointer fields may be nil (`none`). A `*View` argument is
`Option RawView`. -/
structure RawView where
  sequence : Option Nat
  round : Option Nat
deriving DecidableEq, Repr

/-- Modelled from the spec: three-way comparison of naturals (`big.Int.Cmp`). -/
def intCmp (a b : Nat) : Int :=
  if a < b then -1 else if b < a then 1 else 0

/-- Modelled from the spec: `View.Cmp` — total order comparing `sequence`
first, then `round`. -/
def View.cmp (a b : View) : Int :=
  if intCmp a.sequence b.sequence ≠ 0 then intCmp a.sequence b.sequence
  else intCmp a.round b.round

/-- The strict view order of the spec: sequence first, then round. -/
def viewLtP (a b : View) : Prop :=
  a.sequence < b.sequence ∨ (a.sequence = b.sequence ∧ a.round < b.round)

instance (a b : View) : Decidable (viewLtP a b) := by
  unfold viewLtP; exact inferInstance

/-- The non-strict view order of the spec. -/
def viewLeP (a b : View) : Prop :=
  a.sequence < b.sequence ∨ (a.sequence = b.sequence ∧ a.round ≤ b.round)

instance (a b : View) : Decidable (viewLeP a b) := by
  unfold viewLeP; exact inferInstance

/-- Modelled from the spec: the message-code constants (`msgPreprepare`,
`msgPrepare`, `msgCommit`, `msgRoundChange`), consecutive naturals in the
order Preprepare, Prepare, Commit, RoundChange, matching the numeric
comparisons performed by `checkMessage`. -/
def msgPreprepare : Nat := 0

/-- Modelled from the spec: see `msgPreprepare`. -/
def msgPrepare : Nat := 1

/-- Modelled from the spec: see `msgPreprepare`. -/
def msgCommit : Nat := 2

/-- Modelled from the spec: see `msgPreprepare`. -/
def msgRoundChange : Nat := 3

/-- The `msgPriority` map of `backlog.go`: Preprepare ranks 1, Commit 2,
Prepare 3; a missing key yields the Go zero value 0. -/
def msgPriority (code : Nat) : Nat :=
  if code = msgPreprepare then 1
  else if code = msgCommit then 2
  else if code = msgPrepare then 3
  else 0

/-- Modelled from the spec: the consensus states
`AcceptRequest → Preprepared → Prepared → Committed`. -/
inductive ConsensusState where
  | acceptRequest
  | preprepared
  | prepared
  | committed
deriving DecidableEq, Repr

/-- The classification outcome of `checkMessage`: `ok` is the Go `nil`
error (admit); the others are `errInvalidMessage`, `errFutureMessage`,
`errOldMessage`. -/
inductive CheckResult where
  | ok
  | errInvalidMessage
  | errFutureMessage
  | errOldMessage
deriving DecidableEq, Repr

/-- Embedding of `checkMessage` (backlog.go lines 38-89). `st` is
`c.state`, `cur` is `c.currentView()`; `view` is the `*View` argument. -/
def checkMessage (st : ConsensusState) (cur : View) (msgCode : Nat)
    (view : Option RawView) : CheckResult :=
  match view with
  | none => CheckResult.errInvalidMessage
  | some rv =>
    match rv.sequence, rv.round with
    | some s, some r =>
      let v : View := ⟨s, r⟩
      if msgCode = msgRoundChange then
        if intCmp s cur.sequence > 0 then CheckResult.errFutureMessage
        else if View.cmp v cur < 0 then CheckResult.errOldMessage
        else CheckResult.ok
      else
        if View.cmp v cur > 0 then CheckResult.errFutureMessage
        else if View.cmp v cur < 0 then CheckResult.errOldMessage
        else
          match st with
          | ConsensusState.acceptRequest =>
            if msgCode > msgPreprepare then CheckResult.errFutureMessage
            else CheckResult.ok
          | ConsensusState.preprepared =>
            if msgCode < msgPrepare then CheckResult.errInvalidMessage
            else if msgCode > msgPrepare then CheckResult.errFutureMessage
            else CheckResult.ok
          | ConsensusState.prepared =>
            if msgCode < msgCommit then CheckResult.errInvalidMessage
            else CheckResult.ok
          | ConsensusState.committed => CheckResult.errInvalidMessage
    | _, _ => CheckResult.errInvalidMessage

theorem intCmp_gt_iff {a b : Nat} : intCmp a b > 0 ↔ b < a := by
  unfold intCmp; split_ifs <;> omega

theorem intCmp_lt_iff {a b : Nat} : intCmp a b < 0 ↔ a < b := by
  unfold intCmp; split_ifs <;> omega

theorem View.cmp_lt_iff {a b : View} : View.cmp a b < 0 ↔ viewLtP a b := by
  unfold View.cmp viewLtP intCmp; split_ifs <;> omega

theorem View.cmp_gt_iff {a b : View} : View.cmp a b > 0 ↔ viewLtP b a := by
  unfold View.cmp viewLtP intCmp; split_ifs <;> omega

theorem View.cmp_self (v : View) : View.cmp v v = 0 := by
  unfold View.cmp intCmp; split_ifs <;> omega

theorem View.cmp_eq_zero_iff {a b : View} : View.cmp a b = 0 ↔ a = b := by
  obtain ⟨s1, r1⟩ := a
  obtain ⟨s2, r2⟩ := b
  unfold View.cmp intCmp
  simp only [View.mk.injEq]
  split_ifs <;> constructor <;> intro h <;> first | exact h.elim | omega

/-- The raw view holding both fields of a well-formed view. -/
def View.raw (v : View) : RawView := ⟨some v.sequence, some v.round⟩

/-- Claim C3: for a non-RoundChange message whose well-formed view equals
the current view, `checkMessage` classifies by state exactly as the state
table says: AcceptRequest admits Preprepare and makes Prepare and Commit
Future; Preprepared admits Prepare, makes Preprepare Invalid and Commit
Future; Prepared admits Commit and makes Preprepare and Prepare Invalid;
Committed makes all three Invalid. -/
theorem checkMessage_state_table (cur : View) :
    (checkMessage ConsensusState.acceptRequest cur msgPreprepare (some cur.raw) = CheckResult.ok ∧
     checkMessage ConsensusState.acceptRequest cur msgPrepare (some cur.raw) = CheckResult.errFutureMessage ∧
     checkMessage ConsensusState.acceptRequest cur msgCommit (some cur.raw) = CheckResult.errFutureMessage) ∧
    (checkMessage ConsensusState.preprepared cur msgPrepare (some cur.raw) = CheckResult.ok ∧
     checkMessage ConsensusState.preprepared cur msgPreprepare (some cur.raw) = CheckResult.errInvalidMessage ∧
     checkMessage ConsensusState.preprepared cur msgCommit (some cur.raw) = CheckResult.errFutureMessage) ∧
    (checkMessage ConsensusState.prepared cur msgCommit (some cur.raw) = CheckResult.ok ∧
     checkMessage ConsensusState.prepared cur msgPreprepare (some cur.raw) = CheckResult.errInvalidMessage ∧
     checkMessage ConsensusState.prepared cur msgPrepare (some cur.raw) = CheckResult.errInvalidMessage) ∧
    (checkMessage ConsensusState.committed cur msgPreprepare (some cur.raw) = CheckResult.errInvalidMessage ∧
     checkMessage ConsensusState.committed cur msgPrepare (some cur.raw) = CheckResult.errInvalidMessage ∧
     checkMessage ConsensusState.committed cur msgCommit (some cur.raw) = CheckResult.errInvalidMessage) := by
  simp [checkMessage, View.raw, View.cmp_self, msgPreprepare, msgPrepare, msgCommit,
    msgRoundChange]

/-- Bridge lemma: the RoundChange branch of `checkMessage` in terms of the
spec-level view order. -/
theorem checkMessage_rc_eq (st : ConsensusState) (cur : View) (s r : Nat) :
    checkMessage st cur msgRoundChange (some ⟨some s, some r⟩) =
      (if cur.sequence < s then CheckResult.errFutureMessage
       else if viewLtP ⟨s, r⟩ cur then CheckResult.errOldMessage
       else CheckResult.ok) := by
  simp only [checkMessage, if_pos rfl]
  split_ifs <;> simp_all [intCmp_gt_iff, View.cmp_lt_iff]

/-- Claim C4: for a RoundChange message with a well-formed view,
`checkMessage` returns Future iff the message sequence exceeds the current
sequence; otherwise Stale iff the message view is strictly below the
current view in the total view order; otherwise it admits — and the result
does not depend on the consensus state. -/
theorem checkMessage_roundChange_window (st : ConsensusState) (cur : View) (s r : Nat) :
    (checkMessage st cur msgRoundChange (some ⟨some s, some r⟩) = CheckResult.errFutureMessage
      ↔ cur.sequence < s) ∧
    (checkMessage st cur msgRoundChange (some ⟨some s, some r⟩) = CheckResult.errOldMessage
      ↔ s ≤ cur.sequence ∧ viewLtP ⟨s, r⟩ cur) ∧
    (checkMessage st cur msgRoundChange (some ⟨some s, some r⟩) = CheckResult.ok
      ↔ s ≤ cur.sequence ∧ ¬viewLtP ⟨s, r⟩ cur) ∧
    (∀ st2 : ConsensusState,
      checkMessage st2 cur msgRoundChange (some ⟨some s, some r⟩) =
        checkMessage st cur msgRoundChange (some ⟨some s, some r⟩)) := by
  rw [checkMessage_rc_eq]
  refine ⟨?_, ?_, ?_, fun st2 => by rw [checkMessage_rc_eq]⟩ <;>
    · split_ifs with h1 h2 <;> simp_all [viewLtP] <;> omega

/-- Claim C6: any message (of any code, RoundChange included) whose
well-formed view is strictly below the current view classifies as Stale or
Invalid, never Future (the code in fact always answers Stale). -/
theorem checkMessage_stale_monotone (st : ConsensusState) (cur : View) (code s r : Nat)
    (hlt : viewLtP ⟨s, r⟩ cur) :
    (checkMessage st cur code (some ⟨some s, some r⟩) = CheckResult.errOldMessage ∨
     checkMessage st cur code (some ⟨some s, some r⟩) = CheckResult.errInvalidMessage) ∧
    checkMessage st cur code (some ⟨some s, some r⟩) ≠ CheckResult.errFutureMessage := by
  have hold : checkMessage st cur code (some ⟨some s, some r⟩) = CheckResult.errOldMessage := by
    have hlt2 : s < cur.sequence ∨ (s = cur.sequence ∧ r < cur.round) := hlt
    have h1 : ¬intCmp s cur.sequence > 0 := by
      rw [intCmp_gt_iff]; omega
    have h2 : View.cmp ⟨s, r⟩ cur < 0 := View.cmp_lt_iff.mpr hlt
    have h3 : ¬View.cmp ⟨s, r⟩ cur > 0 := by omega
    simp only [checkMessage]
    split_ifs <;> simp_all
  rw [hold]
  exact ⟨Or.inl rfl, by decide⟩

/-- Witness for `checkMessage_stale_monotone` at view (1,3) against
current view (2,0). -/
theorem checkMessage_stale_monotone_witness :
    viewLtP ⟨1, 3⟩ ⟨2, 0⟩ ∧
    ((checkMessage ConsensusState.prepared ⟨2, 0⟩ msgRoundChange (some ⟨some 1, some 3⟩) =
        CheckResult.errOldMessage ∨
      checkMessage ConsensusState.prepared ⟨2, 0⟩ msgRoundChange (some ⟨some 1, some 3⟩) =
        CheckResult.errInvalidMessage) ∧
     checkMessage ConsensusState.prepared ⟨2, 0⟩ msgRoundChange (some ⟨some 1, some 3⟩) ≠
       CheckResult.errFutureMessage) :=
  ⟨by decide, checkMessage_stale_monotone ConsensusState.prepared ⟨2, 0⟩ msgRoundChange 1 3
    (by decide)⟩

/-- `2^64`, the modulus of Go `uint64` arithmetic. -/
def U64 : Nat := 18446744073709551616

/-- Number of halvings needed to bring `m` below `2^24` (the width of the
IEEE-754 binary32 significand), computed with explicit fuel so that it is
structurally recursive; 64 units of fuel cover every `uint64` value. -/
def expWidth : Nat → Nat → Nat
  | 0, _ => 0
  | f + 1, m => if m < 2 ^ 24 then 0 else expWidth f (m / 2) + 1

/-- The value of the Go conversion `float32(n)` for a natural `n < 2^64`:
round to 24 significant bits, nearest, ties to even. Every `uint64`
value is finite in binary32 range, so the result is again a natural. -/
def f32round (n : Nat) : Nat :=
  let k := expWidth 64 n
  if k = 0 then n
  else
    let q := n / 2 ^ k
    let r := n % 2 ^ k
    if 2 * r > 2 ^ k ∨ (2 * r = 2 ^ k ∧ q % 2 = 1) then (q + 1) * 2 ^ k
    else q * 2 ^ k

/-- Embedding of `toPriority` (backlog.go lines 239-248). The Go code
computes `view.Sequence.Uint64()*1000 + view.Round.Uint64()*10 +
msgPriority[msgCode]` in `uint64` arithmetic (wrapping mod `2^64`),
negates it and converts to `float32`; for RoundChange only the sequence
term is used. Comparisons of the resulting negative `float32` values
coincide with the integer order of the negated rounded magnitudes, so the
priority is modelled as `-(f32round magnitude) : Int`. -/
def toPriority (msgCode : Nat) (view : View) : Int :=
  if msgCode = msgRoundChange then
    -(f32round (view.sequence % U64 * 1000 % U64) : Int)
  else
    -(f32round
        ((view.sequence % U64 * 1000 % U64 + view.round % U64 * 10 % U64
          + msgPriority msgCode) % U64) : Int)

theorem expWidth64_small {n : Nat} (h : n < 2 ^ 24) : expWidth 64 n = 0 := by
  have h64 : (64 : Nat) = 63 + 1 := rfl
  rw [h64]
  unfold expWidth
  rw [if_pos h]

theorem f32round_small {n : Nat} (h : n < 2 ^ 24) : f32round n = n := by
  simp only [f32round, expWidth64_small h]
  simp

/-- Claim C2 counterexample: at sequence `2^24 = 16777216` the packed key
no longer fits in the 24-bit `float32` significand, so the strictly
smaller view (16777216, 0) (a Prepare) and the strictly larger view
(16777216, 1) (a Preprepare) round to identical priorities, falsifying
strict monotonicity even though both rounds are within `[0, 99]` and both
kind-ranks within `[0, 9]`. -/
theorem toPriority_precision_collapse :
    viewLtP ⟨16777216, 0⟩ ⟨16777216, 1⟩ ∧
    (16777216 : Nat) ≥ 0 ∧ (0 : Nat) ≤ 99 ∧ (1 : Nat) ≤ 99 ∧
    msgPriority msgPrepare ≤ 9 ∧ msgPriority msgPreprepare ≤ 9 ∧
    toPriority msgPrepare ⟨16777216, 0⟩ = toPriority msgPreprepare ⟨16777216, 1⟩ ∧
    ¬ toPriority msgPrepare ⟨16777216, 0⟩ > toPriority msgPreprepare ⟨16777216, 1⟩ := by
  refine ⟨by decide, by decide, by decide, by decide, by decide, by decide, ?_, ?_⟩ <;>
    decide

theorem msgPriority_bounds {c : Nat} (h : c ≤ 2) :
    1 ≤ msgPriority c ∧ msgPriority c ≤ 3 := by
  interval_cases c <;> decide

/-- In the exactly-representable range the packed key is the plain integer
`sequence*1000 + round*10 + kind-rank`. -/
theorem toPriority_exact {c : Nat} {v : View} (hc : c ≤ 2) (hr : v.round ≤ 99)
    (hs : v.sequence ≤ 16776) :
    toPriority c v = -((v.sequence * 1000 + v.round * 10 + msgPriority c : Nat) : Int) := by
  have hb := msgPriority_bounds hc
  have hU : U64 = 18446744073709551616 := rfl
  have e1 : v.sequence % U64 = v.sequence := Nat.mod_eq_of_lt (by omega)
  have e2 : v.sequence * 1000 % U64 = v.sequence * 1000 := Nat.mod_eq_of_lt (by omega)
  have e3 : v.round % U64 = v.round := Nat.mod_eq_of_lt (by omega)
  have e4 : v.round * 10 % U64 = v.round * 10 := Nat.mod_eq_of_lt (by omega)
  have e5 : (v.sequence * 1000 + v.round * 10 + msgPriority c) % U64
      = v.sequence * 1000 + v.round * 10 + msgPriority c := Nat.mod_eq_of_lt (by omega)
  have h24 : (2 : Nat) ^ 24 = 16777216 := by norm_num
  unfold toPriority
  rw [if_neg (show ¬c = msgRoundChange by unfold msgRoundChange; omega)]
  rw [e1, e2, e3, e4, e5]
  rw [f32round_small (by omega)]

/-- Claim C2 (amended): strict priority monotonicity in the view order
holds for non-RoundChange entries provided, in addition to round ∈ [0,99]
and kind-rank ∈ [0,9], both sequences are at most 16776, so that the
packed key stays below `2^24` and survives the `float32` conversion
exactly (`toPriority_precision_collapse` shows it fails at sequence
`2^24`); the RoundChange key is unconditionally a function of the
sequence alone. -/
theorem toPriority_monotone_in_range (c1 c2 : Nat) (v1 v2 : View)
    (hc1 : c1 ≤ 2) (hc2 : c2 ≤ 2)
    (hr1 : v1.round ≤ 99) (hr2 : v2.round ≤ 99)
    (hs1 : v1.sequence ≤ 16776) (hs2 : v2.sequence ≤ 16776)
    (hlt : viewLtP v1 v2) :
    toPriority c1 v1 > toPriority c2 v2 ∧
    (∀ w1 w2 : View, w1.sequence = w2.sequence →
      toPriority msgRoundChange w1 = toPriority msgRoundChange w2) := by
  constructor
  · rw [toPriority_exact hc1 hr1 hs1, toPriority_exact hc2 hr2 hs2]
    have hb1 := msgPriority_bounds hc1
    have hb2 := msgPriority_bounds hc2
    have hlt2 : v1.sequence < v2.sequence ∨
        (v1.sequence = v2.sequence ∧ v1.round < v2.round) := hlt
    omega
  · intro w1 w2 hseq
    unfold toPriority
    rw [if_pos rfl, if_pos rfl, hseq]

/-- Witness for `toPriority_monotone_in_range`: view (5,1) sorts strictly
ahead of view (5,2) for ordinary kinds. -/
theorem toPriority_monotone_in_range_witness :
    viewLtP ⟨5, 1⟩ ⟨5, 2⟩ ∧ toPriority msgPreprepare ⟨5, 1⟩ > toPriority msgCommit ⟨5, 2⟩ :=
  ⟨by decide,
    (toPriority_monotone_in_range msgPreprepare msgCommit ⟨5, 1⟩ ⟨5, 2⟩ (by decide) (by decide)
      (by decide) (by decide) (by decide) (by decide) (by decide)).1⟩

/-- A message held in a backlog entry. `qbft` is the new `QBFTMessage`
representation (its code and view are directly accessible); `legacy` is
the old `*message` representation together with the result of decoding
its payload (`none` when `msg.Decode` fails; decoding is deterministic,
so the same result is observed at store time and at drain time). -/
inductive BacklogMsg where
  | qbft (code : Nat) (view : View)
  | legacy (code : Nat) (decoded : Option View)
deriving DecidableEq, Repr

/-- The message code extracted in `processBacklog` (lines 188 and 194). -/
def BacklogMsg.code : BacklogMsg → Nat
  | BacklogMsg.qbft c _ => c
  | BacklogMsg.legacy c _ => c

/-- The `var view View` local of `processBacklog` after the type switch
(lines 180-217): the message's view, or the zero `View` (nil fields) when
a legacy payload fails to decode. -/
def BacklogMsg.rawView : BacklogMsg → RawView
  | BacklogMsg.qbft _ v => ⟨some v.sequence, some v.round⟩
  | BacklogMsg.legacy _ (some v) => ⟨some v.sequence, some v.round⟩
  | BacklogMsg.legacy _ none => ⟨none, none⟩

/-- The well-formed view of a backlog message, when it has one. -/
def BacklogMsg.viewOf : BacklogMsg → Option View
  | BacklogMsg.qbft _ v => some v
  | BacklogMsg.legacy _ d => d

/-- An entry of a sender's priority queue: the priority it was pushed
with, and the message. -/
structure Entry where
  priority : Int
  msg : BacklogMsg
deriving DecidableEq, Repr

/-- Modelled from the spec: `prque.Push` of the third-party priority
queue. The queue is modelled as the list of its entries; push appends. -/
def prquePush (q : List Entry) (e : Entry) : List Entry := q ++ [e]

/-- Modelled from the spec: `prque.Pop` returns an entry of maximal
priority together with the remaining queue (`none` on the empty queue).
The order among entries of equal priority is unspecified by the spec;
the model returns the earliest-listed entry of maximal priority. -/
def prquePop : List Entry → Option (Entry × List Entry)
  | [] => none
  | e :: rest =>
    match prquePop rest with
    | none => some (e, [])
    | some (m, restm) =>
      if m.priority > e.priority then some (m, e :: restm) else some (e, rest)

theorem prquePop_eq_none_iff {q : List Entry} : prquePop q = none ↔ q = [] := by
  cases q with
  | nil => simp [prquePop]
  | cons e rest =>
    simp only [prquePop]
    constructor
    · intro h
      cases hr : prquePop rest with
      | none => rw [hr] at h; exact absurd h (by simp)
      | some p =>
        obtain ⟨m, restm⟩ := p
        rw [hr] at h
        by_cases hp : m.priority > e.priority <;> simp [hp] at h
    · intro h; exact absurd h (by simp)

theorem prquePop_spec {q : List Entry} {e : Entry} {rest : List Entry}
    (h : prquePop q = some (e, rest)) :
    q.Perm (e :: rest) ∧ q.length = rest.length + 1 ∧
      ∀ x ∈ rest, x.priority ≤ e.priority := by
  induction q generalizing e rest with
  | nil => exact absurd h (by simp [prquePop])
  | cons a t ih =>
    simp only [prquePop] at h
    cases ht : prquePop t with
    | none =>
      simp only [ht] at h
      have hte : t = [] := prquePop_eq_none_iff.mp ht
      simp only [Option.some.injEq, Prod.mk.injEq] at h
      obtain ⟨rfl, rfl⟩ := h
      subst hte
      exact ⟨List.Perm.refl _, by simp, by simp⟩
    | some p =>
      obtain ⟨m, restm⟩ := p
      simp only [ht] at h
      obtain ⟨hperm, hlen, hmax⟩ := ih ht
      by_cases hp : m.priority > a.priority
      · rw [if_pos hp] at h
        simp only [Option.some.injEq, Prod.mk.injEq] at h
        obtain ⟨rfl, rfl⟩ := h
        refine ⟨?_, ?_, ?_⟩
        · exact (hperm.cons a).trans (List.Perm.swap m a restm)
        · simp only [List.length_cons] at hlen ⊢
          omega
        · intro x hx
          rcases List.mem_cons.mp hx with rfl | hx2
          · omega
          · exact hmax x hx2
      · rw [if_neg hp] at h
        simp only [Option.some.injEq, Prod.mk.injEq] at h
        obtain ⟨rfl, rfl⟩ := h
        refine ⟨List.Perm.refl _, by simp, ?_⟩
        intro x hx
        have hx2 := (hperm.mem_iff).mp hx
        rcases List.mem_cons.mp hx2 with rfl | hx3
        · omega
        · have := hmax x hx3; omega

/-- The classification a popped backlog entry receives in `processBacklog`
(lines 180-220): the code and view are extracted by the type switch and
passed to `checkMessage`; the `&view` pointer is never nil there. -/
def classifyEntry (st : ConsensusState) (cur : View) (e : Entry) : CheckResult :=
  checkMessage st cur e.msg.code (some e.msg.rawView)

/-- Observable outcome of the per-sender loop of `processBacklog`:
the final queue, the dispatched entries in dispatch order, the sequence
of popped entries in pop order, and whether the loop was stopped by a
future message (`isFuture`). -/
structure PassResult where
  queue : List Entry
  dispatched : List Entry
  inspected : List Entry
  stoppedFuture : Bool
deriving DecidableEq, Repr

/-- The per-sender loop of `processBacklog` (lines 177-235), with explicit
fuel so that the recursion is structural; `processQueue` instantiates the
fuel with the queue length, which the loop never exceeds since every
iteration pops one entry and stops or recurses on the remainder.
Future: push the entry back (same priority), stop. Stale/Invalid: drop
it, continue. Admit (`ok`): dispatch it, continue. -/
def drainLoop (st : ConsensusState) (cur : View) : Nat → List Entry → PassResult
  | 0, _ => ⟨[], [], [], false⟩
  | fuel + 1, q =>
    match prquePop q with
    | none => ⟨[], [], [], false⟩
    | some (e, rest) =>
      match classifyEntry st cur e with
      | CheckResult.errFutureMessage => ⟨prquePush rest e, [], [e], true⟩
      | CheckResult.ok =>
        let r := drainLoop st cur fuel rest
        ⟨r.queue, e :: r.dispatched, e :: r.inspected, r.stoppedFuture⟩
      | _ =>
        let r := drainLoop st cur fuel rest
        ⟨r.queue, r.dispatched, e :: r.inspected, r.stoppedFuture⟩

/-- The per-sender drain pass over one sender's queue. -/
def processQueue (st : ConsensusState) (cur : View) (q : List Entry) : PassResult :=
  drainLoop st cur q.length q


/-- Master characterisation of the drain loop, proved once by induction on
the fuel and specialised by the claim theorems below. -/
theorem drainLoop_spec (st : ConsensusState) (cur : View) :
    ∀ (fuel : Nat) (q : List Entry), q.length ≤ fuel →
    ((drainLoop st cur fuel q).dispatched =
      (drainLoop st cur fuel q).inspected.filter
        (fun e => classifyEntry st cur e == CheckResult.ok)) ∧
    ((drainLoop st cur fuel q).queue ++
      (drainLoop st cur fuel q).inspected.filter
        (fun e => classifyEntry st cur e != CheckResult.errFutureMessage)).Perm q ∧
    List.Pairwise (fun a b => b.priority ≤ a.priority)
      (drainLoop st cur fuel q).inspected ∧
    (∀ x ∈ (drainLoop st cur fuel q).inspected, x ∈ q) ∧
    (drainLoop st cur fuel q).inspected.length ≤ q.length ∧
    (((drainLoop st cur fuel q).stoppedFuture = false ∧
        (drainLoop st cur fuel q).queue = [] ∧
        ∀ e ∈ (drainLoop st cur fuel q).inspected,
          classifyEntry st cur e ≠ CheckResult.errFutureMessage) ∨
      ((drainLoop st cur fuel q).stoppedFuture = true ∧
        ∃ l e, (drainLoop st cur fuel q).inspected = l ++ [e] ∧
          classifyEntry st cur e = CheckResult.errFutureMessage ∧
          (∀ x ∈ l, classifyEntry st cur x ≠ CheckResult.errFutureMessage) ∧
          e ∈ (drainLoop st cur fuel q).queue)) := by
  intro fuel
  induction fuel with
  | zero =>
    intro q hq
    have hq0 : q = [] := List.length_eq_zero.mp (by omega)
    subst hq0
    simp [drainLoop]
  | succ fuel ih =>
    intro q hq
    cases hpop : prquePop q with
    | none =>
      have hq0 : q = [] := prquePop_eq_none_iff.mp hpop
      subst hq0
      simp [drainLoop, prquePop]
    | some p =>
      obtain ⟨e, rest⟩ := p
      obtain ⟨hperm, hlen, hmax⟩ := prquePop_spec hpop
      have hrest : rest.length ≤ fuel := by omega
      cases hc : classifyEntry st cur e with
      | errFutureMessage =>
        simp only [drainLoop, hpop, hc]
        refine ⟨?_, ?_, ?_, ?_, ?_, ?_⟩
        · simp [List.filter_cons, hc]
        · have h1 : (rest ++ [e]).Perm q :=
            (List.perm_append_singleton e rest).trans hperm.symm
          simpa [prquePush, List.filter_cons, hc] using h1
        · simp
        · intro x hx
          simp only [List.mem_singleton] at hx
          subst hx
          exact hperm.mem_iff.mpr (List.mem_cons_self _ _)
        · simp only [List.length_singleton]
          omega
        · right
          refine ⟨by trivial, [], e, by simp, hc, by simp, ?_⟩
          simp [prquePush]
      | ok =>
        obtain ⟨ih1, ih2, ih3, ih4, ih5, ih6⟩ := ih rest hrest
        simp only [drainLoop, hpop, hc]
        refine ⟨?_, ?_, ?_, ?_, ?_, ?_⟩
        · simp [List.filter_cons, hc, ih1]
        · have h2 : ((drainLoop st cur fuel rest).queue ++
              e :: List.filter (fun x => classifyEntry st cur x != CheckResult.errFutureMessage)
                (drainLoop st cur fuel rest).inspected).Perm q :=
            (List.perm_middle.trans (ih2.cons e)).trans hperm.symm
          simpa [List.filter_cons, hc] using h2
        · refine List.pairwise_cons.mpr ⟨?_, ih3⟩
          intro x hx
          exact hmax x (ih4 x hx)
        · intro x hx
          rcases List.mem_cons.mp hx with rfl | hx2
          · exact hperm.mem_iff.mpr (List.mem_cons_self _ _)
          · exact hperm.mem_iff.mpr (List.mem_cons_of_mem _ (ih4 x hx2))
        · simp only [List.length_cons]
          omega
        · rcases ih6 with ⟨hsf, hqe, hall⟩ | ⟨hsf, l, e2, hie, hce, hnl, hmem⟩
          · left
            refine ⟨hsf, hqe, ?_⟩
            intro x hx
            rcases List.mem_cons.mp hx with rfl | hx2
            · rw [hc]; decide
            · exact hall x hx2
          · right
            refine ⟨hsf, e :: l, e2, by rw [hie]; rfl, hce, ?_, hmem⟩
            intro x hx
            rcases List.mem_cons.mp hx with rfl | hx2
            · rw [hc]; decide
            · exact hnl x hx2
      | errInvalidMessage =>
        obtain ⟨ih1, ih2, ih3, ih4, ih5, ih6⟩ := ih rest hrest
        simp only [drainLoop, hpop, hc]
        refine ⟨?_, ?_, ?_, ?_, ?_, ?_⟩
        · simp [List.filter_cons, hc, ih1]
        · have h2 : ((drainLoop st cur fuel rest).queue ++
              e :: List.filter (fun x => classifyEntry st cur x != CheckResult.errFutureMessage)
                (drainLoop st cur fuel rest).inspected).Perm q :=
            (List.perm_middle.trans (ih2.cons e)).trans hperm.symm
          simpa [List.filter_cons, hc] using h2
        · refine List.pairwise_cons.mpr ⟨?_, ih3⟩
          intro x hx
          exact hmax x (ih4 x hx)
        · intro x hx
          rcases List.mem_cons.mp hx with rfl | hx2
          · exact hperm.mem_iff.mpr (List.mem_cons_self _ _)
          · exact hperm.mem_iff.mpr (List.mem_cons_of_mem _ (ih4 x hx2))
        · simp only [List.length_cons]
          omega
        · rcases ih6 with ⟨hsf, hqe, hall⟩ | ⟨hsf, l, e2, hie, hce, hnl, hmem⟩
          · left
            refine ⟨hsf, hqe, ?_⟩
            intro x hx
            rcases List.mem_cons.mp hx with rfl | hx2
            · rw [hc]; decide
            · exact hall x hx2
          · right
            refine ⟨hsf, e :: l, e2, by rw [hie]; rfl, hce, ?_, hmem⟩
            intro x hx
            rcases List.mem_cons.mp hx with rfl | hx2
            · rw [hc]; decide
            · exact hnl x hx2
      | errOldMessage =>
        obtain ⟨ih1, ih2, ih3, ih4, ih5, ih6⟩ := ih rest hrest
        simp only [drainLoop, hpop, hc]
        refine ⟨?_, ?_, ?_, ?_, ?_, ?_⟩
        · simp [List.filter_cons, hc, ih1]
        · have h2 : ((drainLoop st cur fuel rest).queue ++
              e :: List.filter (fun x => classifyEntry st cur x != CheckResult.errFutureMessage)
                (drainLoop st cur fuel rest).inspected).Perm q :=
            (List.perm_middle.trans (ih2.cons e)).trans hperm.symm
          simpa [List.filter_cons, hc] using h2
        · refine List.pairwise_cons.mpr ⟨?_, ih3⟩
          intro x hx
          exact hmax x (ih4 x hx)
        · intro x hx
          rcases List.mem_cons.mp hx with rfl | hx2
          · exact hperm.mem_iff.mpr (List.mem_cons_self _ _)
          · exact hperm.mem_iff.mpr (List.mem_cons_of_mem _ (ih4 x hx2))
        · simp only [List.length_cons]
          omega
        · rcases ih6 with ⟨hsf, hqe, hall⟩ | ⟨hsf, l, e2, hie, hce, hnl, hmem⟩
          · left
            refine ⟨hsf, hqe, ?_⟩
            intro x hx
            rcases List.mem_cons.mp hx with rfl | hx2
            · rw [hc]; decide
            · exact hall x hx2
          · right
            refine ⟨hsf, e :: l, e2, by rw [hie]; rfl, hce, ?_, hmem⟩
            intro x hx
            rcases List.mem_cons.mp hx with rfl | hx2
            · rw [hc]; decide
            · exact hnl x hx2

/-- First-match lookup in the sender → queue association list modelling
the Go map `c.backlogs`. -/
def getQ : List (Nat × List Entry) → Nat → Option (List Entry)
  | [], _ => none
  | (b, q) :: rest, a => if b = a then some q else getQ rest a

/-- Map update `c.backlogs[src] = backlog`. -/
def setQ : List (Nat × List Entry) → Nat → List Entry → List (Nat × List Entry)
  | [], a, q => [(a, q)]
  | (b, qb) :: rest, a, q =>
    if b = a then (a, q) :: rest else (b, qb) :: setQ rest a q

/-- Modelled from the spec: the fields of the `core` object that this
subsystem reads — current state, current view, the local address, the
backlog map, and the validator set (as the list of member addresses). -/
structure Core where
  state : ConsensusState
  curView : View
  address : Nat
  backlogs : List (Nat × List Entry)
  valSet : List Nat
deriving DecidableEq, Repr

/-- Embedding of `storeQBFTBacklog` (backlog.go lines 91-113): drop
self-messages, otherwise look up (or lazily create) the sender's queue
and push the message with priority `toPriority(msg.Code(), msg.View())`. -/
def Core.storeQBFTBacklog (c : Core) (src : Nat) (code : Nat) (view : View) : Core :=
  if src = c.address then c
  else
    let backlog := (getQ c.backlogs src).getD []
    { c with
      backlogs := setQ c.backlogs src
        (prquePush backlog ⟨toPriority code view, BacklogMsg.qbft code view⟩) }

/-- Embedding of `storeBacklog` (backlog.go lines 115-155): drop
self-messages; otherwise decode the payload according to the code
(Preprepare / RoundChange / Subject — all three push on success and skip
the push on failure), then store the queue back (the map entry is written
even when the decode failed and nothing was pushed). -/
def Core.storeBacklog (c : Core) (src : Nat) (code : Nat) (decoded : Option View) : Core :=
  if src = c.address then c
  else
    let backlog := (getQ c.backlogs src).getD []
    let backlog2 :=
      match decoded with
      | some v => prquePush backlog ⟨toPriority code v, BacklogMsg.legacy code (some v)⟩
      | none => backlog
    { c with backlogs := setQ c.backlogs src backlog2 }

/-- The sender loop of `processBacklog` (backlog.go lines 161-236):
senders no longer in the validator set have their whole queue deleted
(and nothing dispatched); every other sender's queue is drained by the
per-sender loop, and each dispatched entry becomes a `backlogEvent`
tagged with that sender. -/
def processBacklogs (st : ConsensusState) (cur : View) (vs : List Nat) :
    List (Nat × List Entry) → List (Nat × List Entry) × List (Nat × Entry)
  | [] => ([], [])
  | (a, q) :: rest =>
    let r := processBacklogs st cur vs rest
    if a ∈ vs then
      let pr := processQueue st cur q
      ((a, pr.queue) :: r.1, pr.dispatched.map (fun e => (a, e)) ++ r.2)
    else r

/-- Embedding of `processBacklog` (backlog.go lines 157-237): the updated
core together with the list of dispatched `(sender, entry)` events in
dispatch order. -/
def Core.processBacklog (c : Core) : Core × List (Nat × Entry) :=
  let r := processBacklogs c.state c.curView c.valSet c.backlogs
  ({ c with backlogs := r.1 }, r.2)

theorem getQ_setQ_ne {a b : Nat} (h : a ≠ b) :
    ∀ (bs : List (Nat × List Entry)) (q : List Entry),
      getQ (setQ bs a q) b = getQ bs b := by
  intro bs
  induction bs with
  | nil => intro q; simp [setQ, getQ, h]
  | cons p rest ih =>
    intro q
    obtain ⟨x, qx⟩ := p
    by_cases hx : x = a
    · subst hx
      simp only [setQ, if_pos rfl, getQ]
      rw [if_neg h, if_neg h]
    · simp only [setQ, if_neg hx, getQ]
      by_cases hb : x = b
      · rw [if_pos hb, if_pos hb]
      · rw [if_neg hb, if_neg hb, ih]

theorem processBacklogs_purge {st : ConsensusState} {cur : View} {vs : List Nat} {a : Nat}
    (ha : a ∉ vs) :
    ∀ bs : List (Nat × List Entry),
      getQ (processBacklogs st cur vs bs).1 a = none ∧
      ∀ p ∈ (processBacklogs st cur vs bs).2, p.1 ≠ a := by
  intro bs
  induction bs with
  | nil => exact ⟨rfl, by simp [processBacklogs]⟩
  | cons p rest ih =>
    obtain ⟨b, q⟩ := p
    simp only [processBacklogs]
    by_cases hb : b ∈ vs
    · rw [if_pos hb]
      have hba : b ≠ a := fun hba => ha (hba ▸ hb)
      refine ⟨?_, ?_⟩
      · simp only [getQ, if_neg hba]
        exact ih.1
      · intro p2 hp2
        rcases List.mem_append.mp hp2 with hmap | hrest
        · obtain ⟨e, _, heq⟩ := List.mem_map.mp hmap
          rw [← heq]
          exact hba
        · exact ih.2 p2 hrest
    · rw [if_neg hb]
      exact ih

theorem processBacklogs_getQ_none {st : ConsensusState} {cur : View} {vs : List Nat} {a : Nat} :
    ∀ bs : List (Nat × List Entry),
      getQ bs a = none → getQ (processBacklogs st cur vs bs).1 a = none := by
  intro bs
  induction bs with
  | nil => intro _; rfl
  | cons p rest ih =>
    intro h
    obtain ⟨b, q⟩ := p
    simp only [getQ] at h
    have hba : b ≠ a := by
      intro hba
      rw [if_pos hba] at h
      exact absurd h (by simp)
    rw [if_neg hba] at h
    simp only [processBacklogs]
    by_cases hb : b ∈ vs
    · rw [if_pos hb]
      simp only [getQ, if_neg hba]
      exact ih h
    · rw [if_neg hb]
      exact ih h

theorem processBacklogs_dispatch_mem {st : ConsensusState} {cur : View} {vs : List Nat} :
    ∀ (bs : List (Nat × List Entry)) (p : Nat × Entry),
      p ∈ (processBacklogs st cur vs bs).2 →
      p.1 ∈ vs ∧ ∃ q, (p.1, q) ∈ bs ∧ p.2 ∈ (processQueue st cur q).dispatched := by
  intro bs
  induction bs with
  | nil => intro p hp; exact absurd hp (by simp [processBacklogs])
  | cons hd rest ih =>
    intro p hp
    obtain ⟨b, q⟩ := hd
    simp only [processBacklogs] at hp
    by_cases hb : b ∈ vs
    · rw [if_pos hb] at hp
      rcases List.mem_append.mp hp with hmap | hrest
      · obtain ⟨e, he, heq⟩ := List.mem_map.mp hmap
        subst heq
        exact ⟨hb, q, List.mem_cons_self _ _, he⟩
      · obtain ⟨hv, q2, hq2, he2⟩ := ih p hrest
        exact ⟨hv, q2, List.mem_cons_of_mem _ hq2, he2⟩
    · rw [if_neg hb] at hp
      obtain ⟨hv, q2, hq2, he2⟩ := ih p hp
      exact ⟨hv, q2, List.mem_cons_of_mem _ hq2, he2⟩

/-- Claim C9: a drain pass over a sender's queue holding N entries
performs at most N pop operations (`inspected` records one element per
pop); termination itself holds by construction, `drainLoop` being a total
function whose fuel `q.length` this bound shows sufficient. -/
theorem drain_pop_bound (st : ConsensusState) (cur : View) (q : List Entry) :
    (processQueue st cur q).inspected.length ≤ q.length :=
  (drainLoop_spec st cur q.length q le_rfl).2.2.2.2.1

/-- Claim C5: during a per-sender pass, entries are popped in
non-increasing priority order; the dispatched entries are exactly the
popped entries that re-classify Admit, in pop order; Stale/Invalid pops
are dropped and the pass continues; the pass ends either with the queue
fully drained and no Future entry popped, or at the first Future entry,
which is pushed back unchanged into the remaining queue with nothing
popped after it; and every event `processBacklog` emits is tagged with
the sender of the queue the entry came from (a current validator). -/
theorem drain_pass_semantics :
    (∀ (st : ConsensusState) (cur : View) (q : List Entry),
      (processQueue st cur q).dispatched =
        (processQueue st cur q).inspected.filter
          (fun e => classifyEntry st cur e == CheckResult.ok) ∧
      List.Pairwise (fun a b => b.priority ≤ a.priority) (processQueue st cur q).inspected ∧
      ((processQueue st cur q).queue ++
        (processQueue st cur q).inspected.filter
          (fun e => classifyEntry st cur e != CheckResult.errFutureMessage)).Perm q ∧
      (((processQueue st cur q).stoppedFuture = false ∧
          (processQueue st cur q).queue = [] ∧
          ∀ e ∈ (processQueue st cur q).inspected,
            classifyEntry st cur e ≠ CheckResult.errFutureMessage) ∨
        ((processQueue st cur q).stoppedFuture = true ∧
          ∃ l e, (processQueue st cur q).inspected = l ++ [e] ∧
            classifyEntry st cur e = CheckResult.errFutureMessage ∧
            (∀ x ∈ l, classifyEntry st cur x ≠ CheckResult.errFutureMessage) ∧
            e ∈ (processQueue st cur q).queue))) ∧
    (∀ (c : Core) (p : Nat × Entry), p ∈ (Core.processBacklog c).2 →
      p.1 ∈ c.valSet ∧ ∃ q, (p.1, q) ∈ c.backlogs ∧
        p.2 ∈ (processQueue c.state c.curView q).dispatched) := by
  constructor
  · intro st cur q
    obtain ⟨h1, h2, h3, _, _, h6⟩ := drainLoop_spec st cur q.length q le_rfl
    exact ⟨h1, h3, h2, h6⟩
  · intro c p hp
    exact processBacklogs_dispatch_mem c.backlogs p hp

/-- Witness core for `drain_pass_semantics`: validator 7 with a single
admissible Preprepare deferred at the current view. -/
def passCore : Core :=
  { state := ConsensusState.acceptRequest
    curView := ⟨4, 0⟩
    address := 0
    valSet := [7]
    backlogs := [(7, [⟨toPriority msgPreprepare ⟨4, 0⟩,
      BacklogMsg.qbft msgPreprepare ⟨4, 0⟩⟩])] }

/-- Witness for `drain_pass_semantics`: the event dispatched by
`passCore` is tagged with validator 7, a member of the validator set. -/
theorem drain_pass_semantics_witness :
    ((7, (⟨toPriority msgPreprepare ⟨4, 0⟩,
        BacklogMsg.qbft msgPreprepare ⟨4, 0⟩⟩ : Entry)) ∈ (Core.processBacklog passCore).2) ∧
    (7 : Nat) ∈ passCore.valSet :=
  ⟨by decide,
    (drain_pass_semantics.2 passCore
      (7, ⟨toPriority msgPreprepare ⟨4, 0⟩, BacklogMsg.qbft msgPreprepare ⟨4, 0⟩⟩)
      (by decide)).1⟩

/-- Claim C7: both store functions drop self-messages without touching
the backlog map (no queue keyed by the local identity is ever created),
and consequently the invariant that the backlog has no entry under the
local address is preserved by both stores and by `processBacklog`. -/
theorem no_self_deferral (c : Core) (src code : Nat) (view : View) (decoded : Option View) :
    (src = c.address →
      Core.storeQBFTBacklog c src code view = c ∧
      Core.storeBacklog c src code decoded = c) ∧
    (getQ c.backlogs c.address = none →
      getQ (Core.storeQBFTBacklog c src code view).backlogs c.address = none ∧
      getQ (Core.storeBacklog c src code decoded).backlogs c.address = none ∧
      getQ (Core.processBacklog c).1.backlogs c.address = none) := by
  constructor
  · intro h
    constructor <;> simp [Core.storeQBFTBacklog, Core.storeBacklog, h]
  · intro h
    refine ⟨?_, ?_, ?_⟩
    · by_cases hs : src = c.address
      · simp only [Core.storeQBFTBacklog, if_pos hs]
        exact h
      · simp only [Core.storeQBFTBacklog, if_neg hs]
        rw [getQ_setQ_ne hs]
        exact h
    · by_cases hs : src = c.address
      · simp only [Core.storeBacklog, if_pos hs]
        exact h
      · simp only [Core.storeBacklog, if_neg hs]
        rw [getQ_setQ_ne hs]
        exact h
    · simp only [Core.processBacklog]
      exact processBacklogs_getQ_none c.backlogs h

/-- Witness core for `no_self_deferral`: local address 1, one remote
queue. -/
def selfCore : Core :=
  { state := ConsensusState.prepared
    curView := ⟨3, 0⟩
    address := 1
    valSet := [2]
    backlogs := [(2, [])] }

/-- Witness for `no_self_deferral` at the local address of `selfCore`. -/
theorem no_self_deferral_witness :
    Core.storeQBFTBacklog selfCore 1 msgPreprepare ⟨3, 0⟩ = selfCore ∧
    getQ (Core.processBacklog selfCore).1.backlogs 1 = none :=
  ⟨((no_self_deferral selfCore 1 msgPreprepare ⟨3, 0⟩ none).1 rfl).1,
    ((no_self_deferral selfCore 1 msgPreprepare ⟨3, 0⟩ none).2 (by decide)).2.2⟩

/-- Claim C8: a sender absent from the validator set has its whole queue
deleted by a `processBacklog` pass and no event of the pass is tagged
with it, whatever its queued entries contain. -/
theorem validator_removal_purge (c : Core) (a : Nat) (ha : a ∉ c.valSet) :
    getQ (Core.processBacklog c).1.backlogs a = none ∧
    ∀ p ∈ (Core.processBacklog c).2, p.1 ≠ a := by
  simp only [Core.processBacklog]
  exact processBacklogs_purge ha c.backlogs

/-- Witness core for `validator_removal_purge`: sender 9 holds a queued
entry that would re-classify Admit, but 9 is no longer a validator. -/
def purgeCore : Core :=
  { state := ConsensusState.acceptRequest
    curView := ⟨4, 0⟩
    address := 0
    valSet := []
    backlogs := [(9, [⟨toPriority msgPreprepare ⟨4, 0⟩,
      BacklogMsg.qbft msgPreprepare ⟨4, 0⟩⟩])] }

/-- Witness for `validator_removal_purge` on `purgeCore`. -/
theorem validator_removal_purge_witness :
    (9 : Nat) ∉ purgeCore.valSet ∧
    getQ (Core.processBacklog purgeCore).1.backlogs 9 = none :=
  ⟨by decide, (validator_removal_purge purgeCore 9 (by decide)).1⟩

/-- Claim C10: a legacy backlog entry whose payload fails to decode keeps
the zero view (nil sequence and round), is therefore classified Invalid
by `checkMessage`, and the pass drops it and continues: it is not pushed
back, not dispatched, and the rest of the pass proceeds exactly as the
pass over the remaining queue (in particular it never makes the pass stop
early). -/
theorem undecodable_entry_dropped (st : ConsensusState) (cur : View) (q rest : List Entry)
    (code : Nat) (pr : Int)
    (hpop : prquePop q = some (⟨pr, BacklogMsg.legacy code none⟩, rest)) :
    BacklogMsg.rawView (BacklogMsg.legacy code none) = ⟨none, none⟩ ∧
    classifyEntry st cur ⟨pr, BacklogMsg.legacy code none⟩ = CheckResult.errInvalidMessage ∧
    processQueue st cur q =
      ⟨(processQueue st cur rest).queue, (processQueue st cur rest).dispatched,
        ⟨pr, BacklogMsg.legacy code none⟩ :: (processQueue st cur rest).inspected,
        (processQueue st cur rest).stoppedFuture⟩ := by
  have hcl : classifyEntry st cur ⟨pr, BacklogMsg.legacy code none⟩ =
      CheckResult.errInvalidMessage := by
    simp [classifyEntry, BacklogMsg.code, BacklogMsg.rawView, checkMessage]
  refine ⟨rfl, hcl, ?_⟩
  have hlen : q.length = rest.length + 1 := (prquePop_spec hpop).2.1
  show drainLoop st cur q.length q = _
  rw [hlen]
  simp only [drainLoop, hpop, hcl]
  rfl

/-- Witness for `undecodable_entry_dropped`: a one-entry queue holding an
undecodable legacy message is drained to the empty queue with nothing
dispatched and no early stop. -/
theorem undecodable_entry_dropped_witness :
    prquePop [(⟨5, BacklogMsg.legacy 2 none⟩ : Entry)] =
      some (⟨5, BacklogMsg.legacy 2 none⟩, []) ∧
    (BacklogMsg.rawView (BacklogMsg.legacy 2 none) = (⟨none, none⟩ : RawView) ∧
     classifyEntry ConsensusState.acceptRequest ⟨1, 0⟩ ⟨5, BacklogMsg.legacy 2 none⟩ =
       CheckResult.errInvalidMessage ∧
     processQueue ConsensusState.acceptRequest ⟨1, 0⟩ [⟨5, BacklogMsg.legacy 2 none⟩] =
       ⟨(processQueue ConsensusState.acceptRequest ⟨1, 0⟩ []).queue,
        (processQueue ConsensusState.acceptRequest ⟨1, 0⟩ []).dispatched,
        ⟨5, BacklogMsg.legacy 2 none⟩ ::
          (processQueue ConsensusState.acceptRequest ⟨1, 0⟩ []).inspected,
        (processQueue ConsensusState.acceptRequest ⟨1, 0⟩ []).stoppedFuture⟩) :=
  ⟨by decide,
    undecodable_entry_dropped ConsensusState.acceptRequest ⟨1, 0⟩
      [⟨5, BacklogMsg.legacy 2 none⟩] [] 2 5 (by decide)⟩

theorem dispatched_classify_ok {st : ConsensusState} {cur : View} {q : List Entry} {e : Entry}
    (he : e ∈ (processQueue st cur q).dispatched) :
    classifyEntry st cur e = CheckResult.ok := by
  have h1 : (processQueue st cur q).dispatched =
      (processQueue st cur q).inspected.filter
        (fun x => classifyEntry st cur x == CheckResult.ok) :=
    (drainLoop_spec st cur q.length q le_rfl).1
  rw [h1] at he
  have := (List.mem_filter.mp he).2
  simpa using this

theorem viewLeP_refl (v : View) : viewLeP v v := by
  unfold viewLeP; omega

theorem classify_ok_nonRC {st : ConsensusState} {cur : View} {e : Entry}
    (hrc : e.msg.code ≠ msgRoundChange)
    (hok : classifyEntry st cur e = CheckResult.ok) :
    e.msg.viewOf = some cur := by
  obtain ⟨pr, m⟩ := e
  cases m with
  | qbft c v =>
    simp only [classifyEntry, BacklogMsg.code, BacklogMsg.rawView, checkMessage] at hok
    simp only [BacklogMsg.code] at hrc
    rw [if_neg hrc] at hok
    simp only [BacklogMsg.viewOf, Option.some.injEq]
    by_cases h1 : View.cmp ⟨v.sequence, v.round⟩ cur > 0
    · rw [if_pos h1] at hok; exact absurd hok (by decide)
    · rw [if_neg h1] at hok
      by_cases h2 : View.cmp ⟨v.sequence, v.round⟩ cur < 0
      · rw [if_pos h2] at hok; exact absurd hok (by decide)
      · have h0 : View.cmp ⟨v.sequence, v.round⟩ cur = 0 := by omega
        exact View.cmp_eq_zero_iff.mp h0
  | legacy c d =>
    cases d with
    | some v =>
      simp only [classifyEntry, BacklogMsg.code, BacklogMsg.rawView, checkMessage] at hok
      simp only [BacklogMsg.code] at hrc
      rw [if_neg hrc] at hok
      simp only [BacklogMsg.viewOf, Option.some.injEq]
      by_cases h1 : View.cmp ⟨v.sequence, v.round⟩ cur > 0
      · rw [if_pos h1] at hok; exact absurd hok (by decide)
      · rw [if_neg h1] at hok
        by_cases h2 : View.cmp ⟨v.sequence, v.round⟩ cur < 0
        · rw [if_pos h2] at hok; exact absurd hok (by decide)
        · have h0 : View.cmp ⟨v.sequence, v.round⟩ cur = 0 := by omega
          exact View.cmp_eq_zero_iff.mp h0
    | none =>
      simp only [classifyEntry, BacklogMsg.code, BacklogMsg.rawView, checkMessage] at hok
      exact absurd hok (by decide)

/-- Modelled from the spec: the drain trigger. `processBacklog` runs
whenever the engine's view or state advances; a run over one sender is
the iteration of the per-sender pass through a sequence of
(state, view) contexts, threading the queue and recording each
dispatched entry with the index of its pass. -/
def multiPass : List (ConsensusState × View) → List Entry →
    List Entry × List (Nat × Entry)
  | [], q => (q, [])
  | ctx :: ctxs, q =>
    ((multiPass ctxs (processQueue ctx.1 ctx.2 q).queue).1,
      (processQueue ctx.1 ctx.2 q).dispatched.map (fun e => (0, e)) ++
        (multiPass ctxs (processQueue ctx.1 ctx.2 q).queue).2.map
          (fun p => (p.1 + 1, p.2)))

theorem multiPass_dispatch_ok :
    ∀ (ctxs : List (ConsensusState × View)) (q : List Entry) (i : Nat) (e : Entry),
      (i, e) ∈ (multiPass ctxs q).2 →
      ∃ ctx, ctxs.get? i = some ctx ∧ classifyEntry ctx.1 ctx.2 e = CheckResult.ok := by
  intro ctxs
  induction ctxs with
  | nil =>
    intro q i e h
    exact absurd h (by simp [multiPass])
  | cons ctx ctxs ih =>
    intro q i e h
    simp only [multiPass] at h
    rcases List.mem_append.mp h with h1 | h2
    · obtain ⟨e2, he2, heq⟩ := List.mem_map.mp h1
      obtain ⟨rfl, rfl⟩ := Prod.mk.injEq 0 e2 i e ▸ heq
      exact ⟨ctx, rfl, dispatched_classify_ok he2⟩
    · obtain ⟨p, hp, heq⟩ := List.mem_map.mp h2
      obtain ⟨i0, e0⟩ := p
      obtain ⟨rfl, rfl⟩ := Prod.mk.injEq (i0 + 1) e0 i e ▸ heq
      obtain ⟨ctx2, hget, hcl⟩ := ih _ i0 e0 hp
      exact ⟨ctx2, by simpa using hget, hcl⟩

theorem pairwise_get?_le :
    ∀ l : List View, List.Pairwise viewLeP l →
      ∀ (i j : Nat) (x y : View), i ≤ j →
        l.get? i = some x → l.get? j = some y → viewLeP x y := by
  intro l
  induction l with
  | nil => intro _ i j x y _ hx _; exact absurd hx (by simp)
  | cons a t ih =>
    intro hp i j x y hij hx hy
    obtain ⟨ha, ht⟩ := List.pairwise_cons.mp hp
    cases i with
    | zero =>
      simp only [List.get?_cons_zero, Option.some.injEq] at hx
      subst hx
      cases j with
      | zero =>
        simp only [List.get?_cons_zero, Option.some.injEq] at hy
        subst hy
        exact viewLeP_refl _
      | succ j2 =>
        simp only [List.get?_cons_succ] at hy
        exact ha y (List.get?_mem hy)
    | succ i2 =>
      cases j with
      | zero => omega
      | succ j2 =>
        simp only [List.get?_cons_succ] at hx hy
        exact ih ht i2 j2 x y (by omega) hx hy

/-- Claim C1 (amended): within one drain pass, dispatch order follows the
priority key (the dispatched list is non-increasing in priority), and
across a sequence of passes whose current views are non-decreasing, of
two non-RoundChange messages with well-formed views V1 < V2 that are both
dispatched, the V1 message is dispatched in an earlier or equal pass.
(As `roundchange_dispatch_order_violation` shows, the original claim
fails when a RoundChange is involved: its priority key ignores the round,
so it can be dispatched before a lower-view message of another kind in
the same pass.) -/
theorem backlog_replay_view_ordering :
    (∀ (st : ConsensusState) (cur : View) (q : List Entry),
      List.Pairwise (fun a b => b.priority ≤ a.priority)
        (processQueue st cur q).dispatched) ∧
    (∀ (ctxs : List (ConsensusState × View)) (q : List Entry)
        (i1 i2 : Nat) (e1 e2 : Entry) (v1 v2 : View),
      List.Pairwise viewLeP (ctxs.map Prod.snd) →
      (i1, e1) ∈ (multiPass ctxs q).2 → (i2, e2) ∈ (multiPass ctxs q).2 →
      e1.msg.code ≠ msgRoundChange → e2.msg.code ≠ msgRoundChange →
      e1.msg.viewOf = some v1 → e2.msg.viewOf = some v2 →
      viewLtP v1 v2 → i1 ≤ i2) := by
  constructor
  · intro st cur q
    have h1 : (processQueue st cur q).dispatched =
        (processQueue st cur q).inspected.filter
          (fun x => classifyEntry st cur x == CheckResult.ok) :=
      (drainLoop_spec st cur q.length q le_rfl).1
    have h3 : List.Pairwise (fun a b => b.priority ≤ a.priority)
        (processQueue st cur q).inspected :=
      (drainLoop_spec st cur q.length q le_rfl).2.2.1
    rw [h1]
    exact List.Pairwise.sublist (List.filter_sublist _) h3
  · intro ctxs q i1 i2 e1 e2 v1 v2 hmono h1 h2 hrc1 hrc2 hv1 hv2 hlt
    obtain ⟨ctx1, hg1, hcl1⟩ := multiPass_dispatch_ok ctxs q i1 e1 h1
    obtain ⟨ctx2, hg2, hcl2⟩ := multiPass_dispatch_ok ctxs q i2 e2 h2
    have hva : v1 = ctx1.2 := by
      have := classify_ok_nonRC hrc1 hcl1
      rw [hv1] at this
      exact Option.some.inj this
    have hvb : v2 = ctx2.2 := by
      have := classify_ok_nonRC hrc2 hcl2
      rw [hv2] at this
      exact Option.some.inj this
    by_contra hgt
    push_neg at hgt
    have hle : viewLeP v2 v1 := by
      apply pairwise_get?_le (ctxs.map Prod.snd) hmono i2 i1 v2 v1 (by omega)
      · rw [List.get?_map, hg2, hvb]; rfl
      · rw [List.get?_map, hg1, hva]; rfl
    have hlt2 : v1.sequence < v2.sequence ∨
        (v1.sequence = v2.sequence ∧ v1.round < v2.round) := hlt
    have hle2 : v2.sequence < v1.sequence ∨
        (v2.sequence = v1.sequence ∧ v2.round ≤ v1.round) := hle
    omega

/-- Claim C1 counterexample core: current view (5,1) in AcceptRequest;
validator 7 has deferred a RoundChange for the strictly larger view (5,3)
and a Preprepare for the strictly smaller view (5,1). The RoundChange
priority key (sequence only) outranks the Preprepare key, so one drain
pass dispatches the (5,3) message before the (5,1) message. -/
def cexCore : Core :=
  { state := ConsensusState.acceptRequest
    curView := ⟨5, 1⟩
    address := 0
    valSet := [7]
    backlogs := [(7,
      [⟨toPriority msgRoundChange ⟨5, 3⟩, BacklogMsg.qbft msgRoundChange ⟨5, 3⟩⟩,
       ⟨toPriority msgPreprepare ⟨5, 1⟩, BacklogMsg.qbft msgPreprepare ⟨5, 1⟩⟩])] }

/-- Claim C1 counterexample: with `cexCore`, both deferred messages of
sender 7 are dispatched in the same single drain pass, and the one with
the strictly larger view (5,3) is dispatched first — refuting "a drain
pass never dispatches the message with view V2 before the one with view
V1" for V1 = (5,1) < V2 = (5,3). -/
theorem roundchange_dispatch_order_violation :
    viewLtP ⟨5, 1⟩ ⟨5, 3⟩ ∧
    (Core.processBacklog cexCore).2.map (fun p => (p.1, p.2.msg)) =
      [(7, BacklogMsg.qbft msgRoundChange ⟨5, 3⟩),
       (7, BacklogMsg.qbft msgPreprepare ⟨5, 1⟩)] :=
  ⟨by decide, by decide⟩

/-- Witness entries and contexts for `backlog_replay_view_ordering`. -/
def w1EntryA : Entry :=
  ⟨toPriority msgPreprepare ⟨1, 0⟩, BacklogMsg.qbft msgPreprepare ⟨1, 0⟩⟩

/-- Second witness entry: a Preprepare for the later view (2,0). -/
def w1EntryB : Entry :=
  ⟨toPriority msgPreprepare ⟨2, 0⟩, BacklogMsg.qbft msgPreprepare ⟨2, 0⟩⟩

/-- Witness pass contexts: the current view advances from (1,0) to (2,0). -/
def w1Ctxs : List (ConsensusState × View) :=
  [(ConsensusState.acceptRequest, ⟨1, 0⟩), (ConsensusState.acceptRequest, ⟨2, 0⟩)]

/-- Witness for `backlog_replay_view_ordering`: the Preprepare for view
(1,0) is dispatched in pass 0 and the one for view (2,0) in pass 1, and
the theorem yields 0 ≤ 1. -/
theorem backlog_replay_view_ordering_witness :
    ((0, w1EntryA) ∈ (multiPass w1Ctxs [w1EntryA, w1EntryB]).2) ∧
    ((1, w1EntryB) ∈ (multiPass w1Ctxs [w1EntryA, w1EntryB]).2) ∧
    (0 : Nat) ≤ 1 :=
  ⟨by decide, by decide,
    backlog_replay_view_ordering.2 w1Ctxs [w1EntryA, w1EntryB] 0 1 w1EntryA w1EntryB
      ⟨1, 0⟩ ⟨2, 0⟩ (by decide) (by decide) (by decide) (by decide) (by decide)
      (by decide) (by decide) (by decide)⟩
